import Mathlib

/-!
Verification of the Core class of src/core.ts (internal-staff-portal
backend core): the module registry, the auth bridge hooks, the interception
policies, the startup sequence, the admin info endpoint and the route
introspector, shallowly embedded in Lean.
-/

set_option maxRecDepth 10000

/-- A log line (level, message), as produced by the injected LogFunction. -/
abbrev LogEntry := String × String

/-- User data handed back to the auth library (IUserData in core.ts). -/
structure IUserData where
  email : String
  hashedPassword : String
  id : String
  username : String
deriving DecidableEq

/-- A user document as stored in MongoDB; mongoId models the document field
accessed as user._id in core.ts, active is the flag read by the login
interception. -/
structure DbUser where
  mongoId : String
  email : String
  username : String
  hashedPassword : String
  active : Bool
deriving DecidableEq

/-- A JavaScript value appearing in the arrays returned by the auth hooks. -/
inductive JsVal where
  | bool (b : Bool)
  | user (u : IUserData)
  | null
deriving DecidableEq

/-- The user-data transformation performed in getUserByMail and getUserByName:
builds the IUserData object from the Mongo document. -/
def toUserData (u : DbUser) : IUserData :=
  ⟨u.email, u.hashedPassword, u.mongoId, u.username⟩

/-- JS value of a nullable user datum (userData or null). -/
def jsOfUser : Option IUserData → JsVal
  | none => JsVal.null
  | some d => JsVal.user d

/-- JS Boolean() applied to the number returned by redis sismember. -/
def jsBoolean (n : Nat) : Bool := n != 0

/-!
The six auth bridge storage hooks of initAuth. Each hook is modeled as a
function of its backend call's outcome (the awaited Mongo or Redis call,
which may either produce a value or throw, modeled by Except). The result
is the pair of the log lines emitted and the hook's own outcome: an
Except value so that "an exception propagates" is expressible. The source
wraps every backend call in try/catch, logs String(err) at error level and
returns the failure tuple, so the hook outcome is always Except.ok.
-/

/-- getUserByMail hook: UserModel.findOne by email, try/catch as in core.ts. -/
def hookGetUserByMail (backend : Except String (Option DbUser)) :
    List LogEntry × Except String (List JsVal) :=
  match backend with
  | .ok user => ([], .ok [JsVal.bool false, jsOfUser (user.map toUserData)])
  | .error err => ([("error", err)], .ok [JsVal.bool true, JsVal.null])

/-- getUserByName hook: UserModel.findOne by username, try/catch as in core.ts. -/
def hookGetUserByName (backend : Except String (Option DbUser)) :
    List LogEntry × Except String (List JsVal) :=
  match backend with
  | .ok user => ([], .ok [JsVal.bool false, jsOfUser (user.map toUserData)])
  | .error err => ([("error", err)], .ok [JsVal.bool true, JsVal.null])

/-- storeUser hook: UserModel.create, try/catch as in core.ts. -/
def hookStoreUser (backend : Except String Unit) :
    List LogEntry × Except String (List JsVal) :=
  match backend with
  | .ok _ => ([], .ok [JsVal.bool false])
  | .error err => ([("error", err)], .ok [JsVal.bool true])

/-- checkToken hook: redis sismember (a number), Boolean() conversion,
try/catch as in core.ts. -/
def hookCheckToken (backend : Except String Nat) :
    List LogEntry × Except String (List JsVal) :=
  match backend with
  | .ok included => ([], .ok [JsVal.bool false, JsVal.bool (jsBoolean included)])
  | .error err => ([("error", err)], .ok [JsVal.bool true, JsVal.null])

/-- deleteToken hook: redis srem, try/catch as in core.ts. -/
def hookDeleteToken (backend : Except String Unit) :
    List LogEntry × Except String (List JsVal) :=
  match backend with
  | .ok _ => ([], .ok [JsVal.bool false])
  | .error err => ([("error", err)], .ok [JsVal.bool true])

/-- storeToken hook: redis sadd, try/catch as in core.ts. -/
def hookStoreToken (backend : Except String Unit) :
    List LogEntry × Except String (List JsVal) :=
  match backend with
  | .ok _ => ([], .ok [JsVal.bool false])
  | .error err => ([("error", err)], .ok [JsVal.bool true])

/-- register interception policy: unconditionally returns [true]. -/
def registerIntercept (_input : Unit) : List Bool := [true]

/-- The body of the login interception after the findById await: blocked when
the user is missing or inactive, allowed otherwise (core.ts lines 381-393). -/
def loginDecision (user : Option DbUser) : List Bool :=
  match user with
  | none => [true]
  | some u => if !u.active then [true] else [false]

/-- login interception policy including the backend call's behavior. The
source has no try/catch here, so a rejected UserModel.findById propagates
out of the interception as an exception. -/
def loginIntercept (backend : Except String (Option DbUser)) :
    Except String (List Bool) :=
  match backend with
  | .ok user => .ok (loginDecision user)
  | .error e => .error e

/-!
The redis token set, modeled as a list of strings with set semantics:
sadd, srem and sismember act on the set named by tokenSetName.
-/

/-- redis SADD on the token set. -/
def sadd (s : List String) (t : String) : List String :=
  if t ∈ s then s else s ++ [t]

/-- redis SREM on the token set. -/
def srem (s : List String) (t : String) : List String :=
  s.filter (fun x => x != t)

/-- redis SISMEMBER on the token set (returns a number as ioredis does). -/
def sismember (s : List String) (t : String) : Nat :=
  if t ∈ s then 1 else 0

/-- A mutating token operation issued through the auth bridge. -/
inductive TokenOp where
  | store (t : String)
  | delete (t : String)
deriving DecidableEq

/-- Effect of one token operation on the redis set. -/
def applyOp (s : List String) : TokenOp → List String
  | .store t => sadd s t
  | .delete t => srem s t

/-- The redis set after a sequence of successful storeToken/deleteToken calls
starting from an empty set. -/
def runOps (ops : List TokenOp) : List String := ops.foldl applyOp []

/-- checkToken hook wired to the modeled redis backend. -/
def checkTokenRedis (s : List String) (t : String) :
    List LogEntry × Except String (List JsVal) :=
  hookCheckToken (Except.ok (sismember s t))

/-!
Module registry: addModule of core.ts. The module factory is invoked first
(with the injected capability bundle, irrelevant to these claims and modeled
by Unit), then the duplicate check runs, then the name, path and mounted
router are recorded.
-/

/-- A module descriptor as returned by a module factory; router is an opaque
identifier for the module's express router. -/
structure ModuleDesc where
  name : String
  path : String
  router : Nat
deriving DecidableEq

/-- The registry state held by the Core instance: module names, module paths
and the routers mounted on the express app (mount path, router). -/
structure CoreState where
  modules : List String
  paths : List String
  mounted : List (String × Nat)
deriving DecidableEq

/-- Registry state right after the constructor initialized the arrays. -/
def emptyCore : CoreState := ⟨[], [], []⟩

/-- Observable events of one addModule call, in order. -/
inductive AddEvent where
  | factoryInvoked
  | threw (msg : String)
  | mounted (path : String) (router : Nat)
deriving DecidableEq

/-- The error message thrown on a duplicate path or name (verbatim, including
the source's spelling of alredy). -/
def addModuleMsg (path name : String) : String :=
  "A module with the path \"" ++ path ++ "\" or the name \"" ++ name ++
    "\" is alredy used!"

/-- First group split of a slash-separated string, modeling JS split on a
single slash: groups of characters between slashes. -/
def splitChars : List Char → List (List Char)
  | [] => [[]]
  | c :: rest =>
    let groups := splitChars rest
    if c = '/' then [] :: groups
    else
      match groups with
      | [] => [[c]]
      | g :: gs => (c :: g) :: gs

/-- Models JS String.prototype.split called with the separator slash. -/
def splitSlash (s : String) : List String :=
  (splitChars s.data).map String.mk

/-- Models JS Array.prototype.join called with the separator slash. -/
def joinSlash : List String → String
  | [] => ""
  | s :: rest => rest.foldl (fun acc t => acc ++ "/" ++ t) s

/-- Models Node's path.join for the absolute-plus-relative segments used in
core.ts (no dot or dot-dot segments are involved in these claims). -/
def pathJoin (a b : String) : String :=
  (match a.data with
    | '/' :: _ => "/"
    | _ => "") ++
    joinSlash ((splitSlash a ++ splitSlash b).filter (fun s => s != ""))

/-- addModule of core.ts: invokes the factory, throws on a duplicate path or
name, otherwise records the name and path and mounts the router under
join(api, path). Returns the events, the resulting state (unchanged when the
call throws) and the thrown message, if any. -/
def addModule (st : CoreState) (factory : Unit → ModuleDesc) :
    List AddEvent × CoreState × Option String :=
  let m := factory ()
  if m.path ∈ st.paths ∨ m.name ∈ st.modules then
    ([AddEvent.factoryInvoked, AddEvent.threw (addModuleMsg m.path m.name)],
      st, some (addModuleMsg m.path m.name))
  else
    ([AddEvent.factoryInvoked,
        AddEvent.mounted (pathJoin "/api" m.path) m.router],
      ⟨st.modules ++ [m.name], st.paths ++ [m.path],
        st.mounted ++ [(pathJoin "/api" m.path, m.router)]⟩, none)

/-- Registering a list of module factories starting from the fresh registry,
as the constructor's forEach does. -/
def registerAll (factories : List (Unit → ModuleDesc)) : CoreState :=
  factories.foldl (fun st f => (addModule st f).2.1) emptyCore

/-!
Startup sequence of the Core constructor: the order in which the constructor
initiates the external listeners and connections, with the informational
log line each one emits. pubsub models initSocketIO.
-/

/-- One startup step of the constructor. -/
inductive StartupStep where
  | http (port : Nat)
  | redis
  | pubsub (port : Nat)
  | mongo
deriving DecidableEq

/-- The constructor's startup sequence in source order: initExpress (line 64),
initRedis (line 67), initSocketIO (line 70), initMongo (line 73), each paired
with the informational message it logs. -/
def startupTrace (port pubsubPort : Nat) : List (StartupStep × LogEntry) :=
  [ (StartupStep.http port,
      ("info", "Internal-Staff-Portal REST backend on Port " ++
        toString port ++ "!")),
    (StartupStep.redis, ("info", "Connected to Redis Database!")),
    (StartupStep.pubsub pubsubPort,
      ("info", "Internal-Staff-Portal Socket.IO backend on Port " ++
        toString pubsubPort ++ "!")),
    (StartupStep.mongo, ("info", "Connected to Mongo Database!")) ]

/-!
Route introspector (getEndPoints of core.ts). The split helper receives
either a string (a route's path) or a layer's compiled path regexp; a regexp
is modeled by its JS toString text together with its fast_slash flag. The
decoder performs, character for character, the two first-occurrence string
replacements and the anchored pattern match of the source, falling back to
the complex marker when the text is not of the anticipated shape.
-/

/-- The special characters of the matching pattern's character class:
dot star plus question caret dollar braces parens pipe brackets backslash
slash. An escaped unit must escape one of these; a plain unit must be none
of these. -/
def reSpecials : List Char :=
  ['.', '*', '+', '?', '^', '$', '\x7b', '\x7d', '(', ')', '|', '[', ']',
    '\\', '/']

/-- A character of a mount path that the decoder round-trips: a slash or any
character the compiled pattern neither escapes nor treats specially. -/
def safeChar (c : Char) : Bool := decide (c = '/' ∨ c ∉ reSpecials)

/-- All characters of the list are safe. -/
abbrev SafeL (l : List Char) : Prop := ∀ c ∈ l, safeChar c = true

/-- Whether the pattern is a leading subsequence of the text. -/
def startsWithL : List Char → List Char → Bool
  | [], _ => true
  | _ :: _, [] => false
  | p :: ps, c :: cs => p == c && startsWithL ps cs

/-- JS String.prototype.replace with a plain string pattern: replaces the
first occurrence only, returns the text unchanged when there is none. -/
def replFirst (pat repl : List Char) : List Char → List Char
  | [] => []
  | c :: rest =>
    if startsWithL pat (c :: rest) then repl ++ (c :: rest).drop pat.length
    else c :: replFirst pat repl rest

/-- The body of the anchored match: a run of units, each either a backslash
escaping a special character or a plain non-special character, terminated by
a dollar immediately followed by a slash. Returns the unescaped content, or
none when the text is not of this shape (the greedy star of the source
pattern is deterministic here because no unit can begin with an unescaped
dollar). -/
def parseBody : List Char → Option (List Char)
  | [] => none
  | c :: rest =>
    if c = '\\' then
      match rest with
      | [] => none
      | d :: rest' =>
        if d ∈ reSpecials then (parseBody rest').map (d :: ·) else none
    else if c ∈ reSpecials then
      if c = '$' then
        match rest with
        | '/' :: _ => some []
        | _ => none
      else none
    else (parseBody rest).map (c :: ·)

/-- Decoding of a compiled path regexp's toString text: drop the first
backslash-slash-question, turn the lookahead into a dollar, then match the
anchored escaped-literal pattern and split the unescaped capture on slashes.
none when the text does not match. -/
def decodeRepr (repr : String) : Option (List String) :=
  let s1 := replFirst ['\\', '/', '?'] [] repr.data
  let s2 := replFirst ['(', '?', '=', '\\', '/', '|', '$', ')'] ['$'] s1
  match s2 with
  | '/' :: '^' :: rest => (parseBody rest).map (fun c => splitSlash (String.mk c))
  | _ => none

/-- The opaque marker emitted for an unparseable path expression. -/
def complexMarker (repr : String) : String := "<complex:" ++ repr ++ ">"

/-- A compiled path-matching expression as seen by split: its fast_slash flag
and its JS toString text. -/
structure RegexLike where
  fastSlash : Bool
  repr : String
deriving DecidableEq

/-- The argument of split: a route's literal path string or a layer's
compiled regexp. -/
inductive PathThing where
  | str (s : String)
  | rx (r : RegexLike)
deriving DecidableEq

/-- split of core.ts: strings split on slashes, fast_slash regexps yield the
empty string, other regexps are decoded or degrade to the complex marker.
A string result of the source becomes a one-element list because the JS
array concat appends it as a single element. -/
def splitThing : PathThing → List String
  | .str s => splitSlash s
  | .rx r =>
    if r.fastSlash then [""]
    else (decodeRepr r.repr).getD [complexMarker r.repr]

/-- The escaping performed on a path by the express path compiler (slashes
and dots are prefixed with a backslash). -/
def escL : List Char → List Char
  | [] => []
  | c :: rest =>
    if c = '/' ∨ c = '.' then '\\' :: c :: escL rest else c :: escL rest

/-- The character tail following the escaped path inside the compiled
expression's toString text: backslash slash question, the lookahead group,
the closing slash and the i flag. -/
def exprTail : List Char :=
  ['\\', '/', '?', '(', '?', '=', '\\', '/', '|', '$', ')', '/', 'i']

/-- The compiled expression a mounted router's layer carries for a literal
mount path: toString text caret, escaped path, optional trailing slash,
end lookahead, case-insensitive flag; fast_slash exactly for the root
path. -/
def compileLiteral (p : String) : RegexLike :=
  ⟨p == "/", String.mk ('/' :: '^' :: (escL p.data ++ exprTail))⟩

/-- The compiled expression carried by a terminal method layer inside a
route's stack: the layer is created for the root path with end enabled, so
fast_slash is not set and the text is caret slash slash question dollar. -/
def routeHandlerRx : RegexLike :=
  ⟨false, String.mk ['/', '^', '\\', '/', '\\', '/', '?', '$', '/', 'i']⟩

/-- ASCII uppercase of one character, as JS toUpperCase acts on the
method names involved here. -/
def asciiUpper (c : Char) : Char :=
  if 'a' ≤ c ∧ c ≤ 'z' then Char.ofNat (c.toNat - 32) else c

/-- Models JS String.prototype.toUpperCase for ASCII method names. -/
def toUpperJs (s : String) : String := String.mk (s.data.map asciiUpper)

/-- A node of the express routing tree as traversed by print: a route layer
(layer.route set, with its path and handler stack), a mounted sub-router
(layer.name router, with its compiled regexp and its stack), a terminal
method handler (layer.method set, with its compiled regexp), or any other
middleware layer, which print ignores. -/
inductive Layer where
  | route (path : String) (stack : List Layer)
  | router (regexp : RegexLike) (stack : List Layer)
  | methodHandler (meth : String) (regexp : RegexLike)
  | middleware

mutual

/-- print of core.ts on one layer: the endpoint strings it emits, in
traversal order, given the accumulated path segments. -/
def gatherLayer (path : List String) : Layer → List String
  | .route p stack => gatherStack (path ++ splitThing (.str p)) stack
  | .router r stack => gatherStack (path ++ splitThing (.rx r)) stack
  | .methodHandler m r =>
    [toUpperJs m ++ " /" ++
      joinSlash ((path ++ splitThing (.rx r)).filter (fun s => s != ""))]
  | .middleware => []

/-- print mapped over a layer stack with a common accumulated path. -/
def gatherStack (path : List String) : List Layer → List String
  | [] => []
  | l :: ls => gatherLayer path l ++ gatherStack path ls

end

/-- getEndPoints of core.ts on a routing stack: the emitted endpoint strings
deduplicated with set semantics, first occurrences kept (JS Set insertion
order). -/
def getEndPoints (stack : List Layer) : List String :=
  (gatherStack [] stack).eraseDups

/-!
Literal route declarations: the registrations that give rise to a routing
tree containing only literal paths, and the tree express builds for them.
-/

/-- A literal registration: a route with its method handlers, or a router
mounted at a path with its own registrations. -/
inductive Decl where
  | route (path : String) (methods : List String)
  | mount (path : String) (children : List Decl)

mutual

/-- The express layer a literal registration produces. -/
def buildLayer : Decl → Layer
  | .route p ms =>
    .route p (ms.map (fun m => Layer.methodHandler m routeHandlerRx))
  | .mount p cs => .router (compileLiteral p) (buildLayers cs)

/-- The express layers a list of literal registrations produces. -/
def buildLayers : List Decl → List Layer
  | [] => []
  | d :: ds => buildLayer d :: buildLayers ds

end

/-- The expected endpoint string of one method at a full segment path, per
the specification: METHOD space slash joined-nonempty-segments. -/
def routeString (m : String) (segs : List String) : String :=
  toUpperJs m ++ " /" ++ joinSlash (segs.filter (fun s => s != ""))

mutual

/-- Specification-side endpoint list of a literal registration, written from
the spec's words: the METHOD slash path strings of the declared routes. -/
def specDecl (pre : List String) : Decl → List String
  | .route p ms => ms.map (fun m => routeString m (pre ++ splitSlash p))
  | .mount p cs => specDecls (pre ++ splitSlash p) cs

/-- Specification-side endpoint list of a list of literal registrations. -/
def specDecls (pre : List String) : List Decl → List String
  | [] => []
  | d :: ds => specDecl pre d ++ specDecls pre ds

end

/-- Mount paths of the declaration contain only characters the decoder
round-trips. -/
inductive SafeDecl : Decl → Prop
  | route (p : String) (ms : List String) : SafeDecl (.route p ms)
  | mount (p : String) (cs : List Decl) :
      SafeL p.data → (∀ d ∈ cs, SafeDecl d) → SafeDecl (.mount p cs)

/-!
The admin info endpoint (initExpress of core.ts).
-/

/-- The state the info handler reads: the module-name list and the express
router stack. -/
structure InfoState where
  modules : List String
  stack : List Layer

/-- The JSON body of an info response. -/
inductive InfoBody where
  | err (msg : String)
  | data (modules : List String) (endpoints : List String)

/-- The GET /info handler: 403 with the error payload unless the adminKey
query parameter strictly equals the configured admin key, else 200 with the
module names and the introspector output. -/
def infoHandler (adminKey : String) (st : InfoState) (q : Option String) :
    Nat × InfoBody :=
  if q ≠ some adminKey then
    (403, InfoBody.err "Please provide the \"adminKey\" as a query parameter")
  else
    (200, InfoBody.data st.modules (getEndPoints st.stack))

/-- No position strictly inside the text begins an occurrence of the
pattern, where the text is followed by the given continuation: the shape of
hypothesis under which replFirst walks past the whole text. -/
def cleanBefore (pat suf : List Char) : List Char → Prop
  | [] => True
  | c :: cs => startsWithL pat (c :: (cs ++ suf)) = false ∧ cleanBefore pat suf cs

/-!
Theorems. Helper lemmas first, then one theorem per claim with its witness
or counterexample.
-/

theorem mem_sadd {s : List String} {t u : String} :
    u ∈ sadd s t ↔ u = t ∨ u ∈ s := by
  unfold sadd
  by_cases h : t ∈ s
  · simp only [if_pos h]
    constructor
    · exact Or.inr
    · rintro (rfl | hu)
      · exact h
      · exact hu
  · simp [if_neg h, or_comm]

theorem mem_srem {s : List String} {t u : String} :
    u ∈ srem s t ↔ u ∈ s ∧ u ≠ t := by
  simp [srem]

theorem append_singleton_inj {α : Type} {xs ys : List α} {a b : α}
    (h : xs ++ [a] = ys ++ [b]) : xs = ys ∧ a = b := by
  rcases List.append_inj' h rfl with ⟨h1, h2⟩
  refine ⟨h1, ?_⟩
  injection h2

theorem mem_runOps (ops : List TokenOp) (t : String) :
    t ∈ runOps ops ↔
      ∃ l r, ops = l ++ TokenOp.store t :: r ∧ TokenOp.delete t ∉ r := by
  induction ops using List.reverseRecOn with
  | nil => simp [runOps]
  | append_singleton l0 op ih =>
    have hrun : runOps (l0 ++ [op]) = applyOp (runOps l0) op := by
      simp [runOps, List.foldl_append]
    rw [hrun]
    cases op with
    | store s =>
      rw [show applyOp (runOps l0) (TokenOp.store s) = sadd (runOps l0) s
            from rfl,
        mem_sadd, ih]
      constructor
      · rintro (rfl | ⟨l, r, rfl, hr⟩)
        · exact ⟨l0, [], by simp, by simp⟩
        · refine ⟨l, r ++ [TokenOp.store s], by simp, ?_⟩
          simp only [List.mem_append, List.mem_singleton]
          rintro (hm | hm)
          · exact hr hm
          · exact TokenOp.noConfusion hm
      · rintro ⟨l, r, he, hr⟩
        rcases List.eq_nil_or_concat r with rfl | ⟨r0, a, rfl⟩
        · rcases append_singleton_inj he with ⟨rfl, hop⟩
          injection hop with h
          exact Or.inl h.symm
        · rw [List.concat_eq_append] at he hr
          have he' : l0 ++ [TokenOp.store s] =
              (l ++ TokenOp.store t :: r0) ++ [a] := by
            simpa [List.append_assoc] using he
          rcases append_singleton_inj he' with ⟨rfl, rfl⟩
          refine Or.inr ⟨l, r0, rfl, fun hm => hr (by simp [hm])⟩
    | delete s =>
      rw [show applyOp (runOps l0) (TokenOp.delete s) = srem (runOps l0) s
            from rfl,
        mem_srem, ih]
      constructor
      · rintro ⟨⟨l, r, rfl, hr⟩, hts⟩
        refine ⟨l, r ++ [TokenOp.delete s], by simp, ?_⟩
        simp only [List.mem_append, List.mem_singleton]
        rintro (hm | hm)
        · exact hr hm
        · injection hm with h
          exact hts h
      · rintro ⟨l, r, he, hr⟩
        rcases List.eq_nil_or_concat r with rfl | ⟨r0, a, rfl⟩
        · rcases append_singleton_inj he with ⟨rfl, hop⟩
          exact absurd hop (by simp)
        · rw [List.concat_eq_append] at he hr
          have he' : l0 ++ [TokenOp.delete s] =
              (l ++ TokenOp.store t :: r0) ++ [a] := by
            simpa [List.append_assoc] using he
          rcases append_singleton_inj he' with ⟨rfl, rfl⟩
          have hts : t ≠ s := by
            intro h
            exact hr (by simp [h])
          exact ⟨⟨l, r0, rfl, fun hm => hr (by simp [hm])⟩, hts⟩

/-- C1: addModule throws exactly on a duplicate path or name, succeeds on a
fresh path and name, and consequently the registered module names and paths
stay pairwise distinct over any lifetime of registrations. -/
theorem addModule_unique (st : CoreState) (f : Unit → ModuleDesc) :
    (((f ()).path ∈ st.paths ∨ (f ()).name ∈ st.modules) →
      (addModule st f).2.2 = some (addModuleMsg (f ()).path (f ()).name)) ∧
    (((f ()).path ∉ st.paths ∧ (f ()).name ∉ st.modules) →
      (addModule st f).2.2 = none) ∧
    (∀ fs : List (Unit → ModuleDesc),
      (registerAll fs).modules.Nodup ∧ (registerAll fs).paths.Nodup) := by
  refine ⟨fun h => by simp [addModule, h], fun h => ?_, fun fs => ?_⟩
  · have hcond : ¬ ((f ()).path ∈ st.paths ∨ (f ()).name ∈ st.modules) := by
      rintro (hc | hc)
      · exact h.1 hc
      · exact h.2 hc
    simp [addModule, hcond]
  · have step : ∀ (st0 : CoreState) (g : Unit → ModuleDesc),
        st0.modules.Nodup → st0.paths.Nodup →
        ((addModule st0 g).2.1).modules.Nodup ∧
          ((addModule st0 g).2.1).paths.Nodup := by
      intro st0 g h1 h2
      by_cases hc : (g ()).path ∈ st0.paths ∨ (g ()).name ∈ st0.modules
      · have hst : (addModule st0 g).2.1 = st0 := by simp [addModule, hc]
        rw [hst]
        exact ⟨h1, h2⟩
      · push_neg at hc
        constructor
        · have hm : ((addModule st0 g).2.1).modules =
              st0.modules ++ [(g ()).name] := by
            simp [addModule, hc.1, hc.2]
          rw [hm]
          refine h1.append (List.nodup_singleton _) ?_
          intro x hx hmem
          rw [List.mem_singleton] at hmem
          subst hmem
          exact hc.2 hx
        · have hp : ((addModule st0 g).2.1).paths =
              st0.paths ++ [(g ()).path] := by
            simp [addModule, hc.1, hc.2]
          rw [hp]
          refine h2.append (List.nodup_singleton _) ?_
          intro x hx hmem
          rw [List.mem_singleton] at hmem
          subst hmem
          exact hc.1 hx
    have gen : ∀ (l : List (Unit → ModuleDesc)) (st0 : CoreState),
        st0.modules.Nodup → st0.paths.Nodup →
        ((l.foldl (fun st g => (addModule st g).2.1) st0).modules.Nodup ∧
          (l.foldl (fun st g => (addModule st g).2.1) st0).paths.Nodup) := by
      intro l
      induction l with
      | nil => intro st0 h1 h2; exact ⟨h1, h2⟩
      | cons g gs ihg =>
        intro st0 h1 h2
        rcases step st0 g h1 h2 with ⟨h1', h2'⟩
        simpa [List.foldl_cons] using ihg _ h1' h2'
    simpa [registerAll] using gen fs emptyCore (by simp [emptyCore]) (by simp [emptyCore])

theorem addModule_unique_witness :
    (addModule ⟨["widgets"], ["widgets"], []⟩
        (fun _ => ⟨"widgets", "reports", 7⟩)).2.2 =
      some (addModuleMsg "reports" "widgets") ∧
    (addModule emptyCore (fun _ => ⟨"widgets", "widgets", 7⟩)).2.2 = none :=
  ⟨(addModule_unique ⟨["widgets"], ["widgets"], []⟩
      (fun _ => ⟨"widgets", "reports", 7⟩)).1 (Or.inr (by simp)),
    (addModule_unique emptyCore (fun _ => ⟨"widgets", "widgets", 7⟩)).2.1
      ⟨by simp [emptyCore], by simp [emptyCore]⟩⟩

/-- C2: wired to the modeled redis set, checkToken answers the no-error tuple
with true exactly when the token was stored at some point and not deleted
since, and answers the no-error tuple with false immediately after a
deleteToken of that token. -/
theorem checkToken_membership (ops : List TokenOp) (t : String) :
    ((checkTokenRedis (runOps ops) t).2 =
        Except.ok [JsVal.bool false, JsVal.bool true] ↔
      ∃ l r, ops = l ++ TokenOp.store t :: r ∧ TokenOp.delete t ∉ r) ∧
    (checkTokenRedis (runOps (ops ++ [TokenOp.delete t])) t).2 =
      Except.ok [JsVal.bool false, JsVal.bool false] := by
  constructor
  · rw [← mem_runOps]
    by_cases h : t ∈ runOps ops <;>
      simp [checkTokenRedis, hookCheckToken, sismember, jsBoolean, h]
  · have hnot : t ∉ runOps (ops ++ [TokenOp.delete t]) := by
      have : runOps (ops ++ [TokenOp.delete t]) = srem (runOps ops) t := by
        simp [runOps, List.foldl_append, applyOp]
      rw [this, mem_srem]
      rintro ⟨-, hne⟩
      exact hne rfl
    simp [checkTokenRedis, hookCheckToken, sismember, jsBoolean, hnot]

/-- C3: the login interception blocks when the user is missing or inactive
and allows an existing active user; the register interception always
blocks. -/
theorem intercept_policies :
    (loginIntercept (Except.ok none) = Except.ok [true]) ∧
    (∀ u : DbUser, u.active = false →
      loginIntercept (Except.ok (some u)) = Except.ok [true]) ∧
    (∀ u : DbUser, u.active = true →
      loginIntercept (Except.ok (some u)) = Except.ok [false]) ∧
    (∀ x : Unit, registerIntercept x = [true]) := by
  refine ⟨rfl, ?_, ?_, fun _ => rfl⟩ <;>
    · intro u h
      simp [loginIntercept, loginDecision, h]

theorem intercept_policies_witness :
    loginIntercept (Except.ok (some ⟨"id1", "a@b.c", "alice", "h", false⟩)) =
        Except.ok [true] ∧
    loginIntercept (Except.ok (some ⟨"id2", "d@e.f", "bob", "h", true⟩)) =
        Except.ok [false] :=
  ⟨intercept_policies.2.1 ⟨"id1", "a@b.c", "alice", "h", false⟩ rfl,
    intercept_policies.2.2.1 ⟨"id2", "d@e.f", "bob", "h", true⟩ rfl⟩

/-- C4 counterexample: the login interception policy is an auth bridge entry
point, yet a backend exception raised by findById propagates out of it
unchanged instead of being caught and converted. -/
theorem loginIntercept_propagates :
    loginIntercept (Except.error "mongo connection lost") =
      Except.error "mongo connection lost" := rfl

/-- C4 (amended): each of the six storage hooks never lets a backend
exception escape: whatever the backend does, the hook returns a tuple; on a
backend exception it logs the error at error level and returns the failure
tuple. The register policy performs no backend call and always returns its
tuple. (The login interception policy, in contrast, propagates backend
exceptions: see the counterexample.) -/
theorem authBridge_hooks_never_throw :
    (∀ b, ∃ r, (hookGetUserByMail b).2 = Except.ok r) ∧
    (∀ b, ∃ r, (hookGetUserByName b).2 = Except.ok r) ∧
    (∀ b, ∃ r, (hookStoreUser b).2 = Except.ok r) ∧
    (∀ b, ∃ r, (hookCheckToken b).2 = Except.ok r) ∧
    (∀ b, ∃ r, (hookStoreToken b).2 = Except.ok r) ∧
    (∀ b, ∃ r, (hookDeleteToken b).2 = Except.ok r) ∧
    (∀ e, hookGetUserByMail (Except.error e) =
      ([("error", e)], Except.ok [JsVal.bool true, JsVal.null])) ∧
    (∀ e, hookGetUserByName (Except.error e) =
      ([("error", e)], Except.ok [JsVal.bool true, JsVal.null])) ∧
    (∀ e, hookStoreUser (Except.error e) =
      ([("error", e)], Except.ok [JsVal.bool true])) ∧
    (∀ e, hookCheckToken (Except.error e) =
      ([("error", e)], Except.ok [JsVal.bool true, JsVal.null])) ∧
    (∀ e, hookStoreToken (Except.error e) =
      ([("error", e)], Except.ok [JsVal.bool true])) ∧
    (∀ e, hookDeleteToken (Except.error e) =
      ([("error", e)], Except.ok [JsVal.bool true])) ∧
    (∀ u : Unit, registerIntercept u = [true]) := by
  refine ⟨?_, ?_, ?_, ?_, ?_, ?_, fun e => rfl, fun e => rfl, fun e => rfl,
    fun e => rfl, fun e => rfl, fun e => rfl, fun _ => rfl⟩ <;>
    · intro b
      cases b <;> exact ⟨_, rfl⟩

/-- C5: the exact tuple shapes of the six hooks, on backend success and on a
caught backend exception. -/
theorem hook_tuple_shapes :
    (∀ u, ∃ v, (hookGetUserByMail (Except.ok u)).2 =
        Except.ok [JsVal.bool false, v] ∧
      ((∃ d, v = JsVal.user d) ∨ v = JsVal.null)) ∧
    (∀ u, ∃ v, (hookGetUserByName (Except.ok u)).2 =
        Except.ok [JsVal.bool false, v] ∧
      ((∃ d, v = JsVal.user d) ∨ v = JsVal.null)) ∧
    ((hookStoreUser (Except.ok ())).2 = Except.ok [JsVal.bool false]) ∧
    ((hookStoreToken (Except.ok ())).2 = Except.ok [JsVal.bool false]) ∧
    ((hookDeleteToken (Except.ok ())).2 = Except.ok [JsVal.bool false]) ∧
    (∀ n, ∃ b, (hookCheckToken (Except.ok n)).2 =
      Except.ok [JsVal.bool false, JsVal.bool b]) ∧
    (∀ e, (hookGetUserByMail (Except.error e)).2 =
      Except.ok [JsVal.bool true, JsVal.null]) ∧
    (∀ e, (hookGetUserByName (Except.error e)).2 =
      Except.ok [JsVal.bool true, JsVal.null]) ∧
    (∀ e, (hookCheckToken (Except.error e)).2 =
      Except.ok [JsVal.bool true, JsVal.null]) ∧
    (∀ e, (hookStoreUser (Except.error e)).2 =
      Except.ok [JsVal.bool true]) ∧
    (∀ e, (hookStoreToken (Except.error e)).2 =
      Except.ok [JsVal.bool true]) ∧
    (∀ e, (hookDeleteToken (Except.error e)).2 =
      Except.ok [JsVal.bool true]) := by
  refine ⟨?_, ?_, rfl, rfl, rfl, fun n => ⟨jsBoolean n, rfl⟩, fun e => rfl,
    fun e => rfl, fun e => rfl, fun e => rfl, fun e => rfl, fun e => rfl⟩ <;>
    · rintro (_ | u)
      · exact ⟨JsVal.null, rfl, Or.inr rfl⟩
      · exact ⟨JsVal.user (toUserData u), rfl, Or.inl ⟨_, rfl⟩⟩

/-- C9 counterexample: the constructor's startup sequence does not place the
document-store connection before the pub/sub listener: the third initiated
step is the Socket.IO listener and the fourth is the Mongo connection. -/
theorem startup_order_counterexample :
    (startupTrace 3000 3001).map Prod.fst ≠
      [StartupStep.http 3000, StartupStep.redis, StartupStep.mongo,
        StartupStep.pubsub 3001] := by
  decide

/-- C9 (amended): the constructor initiates, in order, the HTTP listener on
the configured port, the key/value store connection, the Socket.IO pub/sub
listener, and then the document-store connection; each step logs an
informational message through the injected logger. -/
theorem startup_order_actual (p q : Nat) :
    (startupTrace p q).map Prod.fst =
      [StartupStep.http p, StartupStep.redis, StartupStep.pubsub q,
        StartupStep.mongo] ∧
    (startupTrace p q).map (fun e => e.2.1) =
      ["info", "info", "info", "info"] :=
  ⟨rfl, rfl⟩

/-- C10: when addModule throws on a duplicate, the registry state (module
names, module paths, mounted routes) is exactly as before the call, and the
module factory has been invoked exactly once, before the throw. -/
theorem addModule_atomic_on_duplicate (st : CoreState) (f : Unit → ModuleDesc)
    (h : (f ()).path ∈ st.paths ∨ (f ()).name ∈ st.modules) :
    (addModule st f).2.1 = st ∧
    (addModule st f).1 =
      [AddEvent.factoryInvoked,
        AddEvent.threw (addModuleMsg (f ()).path (f ()).name)] ∧
    (addModule st f).1.count AddEvent.factoryInvoked = 1 ∧
    (addModule st f).2.2.isSome = true := by
  refine ⟨by simp [addModule, h], by simp [addModule, h], ?_, by simp [addModule, h]⟩
  have hev : (addModule st f).1 =
      [AddEvent.factoryInvoked,
        AddEvent.threw (addModuleMsg (f ()).path (f ()).name)] := by
    simp [addModule, h]
  rw [hev]
  rfl

theorem addModule_atomic_on_duplicate_witness :
    (addModule ⟨["a"], ["p"], []⟩ (fun _ => ⟨"b", "p", 3⟩)).2.1 =
        ⟨["a"], ["p"], []⟩ ∧
    (addModule ⟨["a"], ["p"], []⟩
        (fun _ => ⟨"b", "p", 3⟩)).1.count AddEvent.factoryInvoked = 1 :=
  ⟨(addModule_atomic_on_duplicate ⟨["a"], ["p"], []⟩ (fun _ => ⟨"b", "p", 3⟩)
      (Or.inl (by simp))).1,
    (addModule_atomic_on_duplicate ⟨["a"], ["p"], []⟩ (fun _ => ⟨"b", "p", 3⟩)
      (Or.inl (by simp))).2.2.1⟩

/-- C6: GET /info yields 403 with the fixed error payload when the adminKey
query parameter is absent or differs from the configured key, and 200 with
the module names and the introspector output when it matches. -/
theorem info_endpoint_responses (key : String) (st : InfoState) :
    (∀ q : Option String, (q = none ∨ ∃ k, q = some k ∧ k ≠ key) →
      infoHandler key st q =
        (403, InfoBody.err
          "Please provide the \"adminKey\" as a query parameter")) ∧
    infoHandler key st (some key) =
      (200, InfoBody.data st.modules (getEndPoints st.stack)) := by
  constructor
  · rintro q (rfl | ⟨k, rfl, hk⟩)
    · rfl
    · simp [infoHandler, hk]
  · simp [infoHandler]

theorem info_endpoint_responses_witness :
    infoHandler "s3cret" ⟨["widgets"], []⟩ none =
      (403, InfoBody.err
        "Please provide the \"adminKey\" as a query parameter") :=
  (info_endpoint_responses "s3cret" ⟨["widgets"], []⟩).1 none (Or.inl rfl)

theorem startsWithL_self (pat rest : List Char) :
    startsWithL pat (pat ++ rest) = true := by
  induction pat with
  | nil => rfl
  | cons p ps ih => simp [startsWithL, ih]

theorem startsWith_head_ne {p c : Char} (ps cs : List Char) (h : p ≠ c) :
    startsWithL (p :: ps) (c :: cs) = false := by
  simp [startsWithL, h]

theorem replFirst_hit (pat repl rest : List Char) (h : pat ≠ []) :
    replFirst pat repl (pat ++ rest) = repl ++ rest := by
  cases pat with
  | nil => exact absurd rfl h
  | cons p ps =>
    have hs : startsWithL (p :: ps) (p :: (ps ++ rest)) = true := by
      simpa using startsWithL_self (p :: ps) rest
    rw [List.cons_append, replFirst, if_pos hs]
    simp [List.drop_left]

theorem replFirst_skip (pat repl suf : List Char) :
    ∀ pre, cleanBefore pat suf pre →
      replFirst pat repl (pre ++ suf) = pre ++ replFirst pat repl suf := by
  intro pre
  induction pre with
  | nil => intro _; rfl
  | cons c cs ih =>
    rintro ⟨h0, h1⟩
    rw [List.cons_append, replFirst, if_neg (by simp [h0]), ih h1]
    rfl

theorem safeChar_cases {c : Char} (h : safeChar c = true) :
    c = '/' ∨ c ∉ reSpecials := of_decide_eq_true h

theorem safeL_head {c : Char} {cs : List Char} (h : SafeL (c :: cs)) :
    safeChar c = true := h c (by simp)

theorem safeL_tail {c : Char} {cs : List Char} (h : SafeL (c :: cs)) :
    SafeL cs := fun d hd => h d (by simp [hd])

theorem qmark_not_head (cs : List Char) (hcs : SafeL cs) (rest : List Char) :
    startsWithL ['?'] (escL cs ++ '\\' :: rest) = false := by
  cases cs with
  | nil => simp [escL, startsWithL]
  | cons d ds =>
    by_cases hd : d = '/' ∨ d = '.'
    · rw [escL, if_pos hd]
      exact startsWith_head_ne _ _ (by decide)
    · rw [escL, if_neg hd]
      rw [List.cons_append]
      refine startsWith_head_ne _ _ ?_
      rcases safeChar_cases (safeL_head hcs) with h1 | h1
      · exact absurd (Or.inl h1) hd
      · intro he
        exact h1 (he ▸ (by decide : ('?' : Char) ∈ reSpecials))

theorem clean_pat1_esc (l : List Char) (hl : SafeL l) (rest : List Char) :
    cleanBefore ['\\', '/', '?'] ('\\' :: '/' :: '?' :: rest) (escL l) := by
  induction l with
  | nil => trivial
  | cons c cs ih =>
    have hc := safeL_head hl
    have hcs := safeL_tail hl
    by_cases hd : c = '/' ∨ c = '.'
    · rw [escL, if_pos hd]
      refine ⟨?_, ?_, ih hcs⟩
      · show startsWithL ['\\', '/', '?']
          ('\\' :: ((c :: escL cs) ++ ('\\' :: '/' :: '?' :: rest))) = false
        have hcq : (c == '?') = false := by
          rcases hd with rfl | rfl <;> decide
        simp only [startsWithL, List.cons_append]
        rcases hd with rfl | rfl
        · simpa [startsWithL] using
            qmark_not_head cs hcs ('/' :: '?' :: rest)
        · simp [startsWithL]
      · exact startsWith_head_ne _ _ (by
          rcases hd with rfl | rfl <;> decide)
    · rw [escL, if_neg hd]
      refine ⟨?_, ih hcs⟩
      refine startsWith_head_ne _ _ ?_
      rcases safeChar_cases hc with h1 | h1
      · exact absurd (Or.inl h1) hd
      · intro he
        exact h1 (he ▸ (by decide : ('\\' : Char) ∈ reSpecials))

theorem clean_pat2_esc (l : List Char) (hl : SafeL l)
    (suf : List Char) :
    cleanBefore ['(', '?', '=', '\\', '/', '|', '$', ')'] suf (escL l) := by
  induction l with
  | nil => trivial
  | cons c cs ih =>
    have hc := safeL_head hl
    have hcs := safeL_tail hl
    by_cases hd : c = '/' ∨ c = '.'
    · rw [escL, if_pos hd]
      refine ⟨startsWith_head_ne _ _ (by decide), ?_, ih hcs⟩
      exact startsWith_head_ne _ _ (by rcases hd with rfl | rfl <;> decide)
    · rw [escL, if_neg hd]
      refine ⟨?_, ih hcs⟩
      refine startsWith_head_ne _ _ ?_
      rcases safeChar_cases hc with h1 | h1
      · exact absurd (Or.inl h1) hd
      · intro he
        exact h1 (he ▸ (by decide : ('(' : Char) ∈ reSpecials))

theorem parseBody_escL (l : List Char) (hl : SafeL l) (rest : List Char) :
    parseBody (escL l ++ '$' :: '/' :: rest) = some l := by
  induction l with
  | nil =>
    show parseBody ('$' :: '/' :: rest) = some []
    rw [parseBody.eq_def]
    simp [reSpecials]
  | cons c cs ih =>
    have hc := safeL_head hl
    have hcs := safeL_tail hl
    by_cases hd : c = '/' ∨ c = '.'
    · rw [escL, if_pos hd]
      have hmem : c ∈ reSpecials := by
        rcases hd with rfl | rfl <;> decide
      show parseBody ('\\' :: ((c :: escL cs) ++ ('$' :: '/' :: rest))) = _
      rw [List.cons_append, parseBody.eq_def]
      simp [hmem, ih hcs]
    · rw [escL, if_neg hd]
      have hns : c ∉ reSpecials := by
        rcases safeChar_cases hc with h1 | h1
        · exact absurd (Or.inl h1) hd
        · exact h1
      have hnb : ¬ c = '\\' := by
        intro he
        exact hns (he ▸ (by decide : ('\\' : Char) ∈ reSpecials))
      rw [List.cons_append, parseBody.eq_def]
      simp [hnb, hns, ih hcs]

theorem decodeRepr_compile (p : String) (hp : SafeL p.data) :
    decodeRepr (compileLiteral p).repr = some (splitSlash p) := by
  have e1 : (compileLiteral p).repr.data =
      ('/' :: '^' :: escL p.data) ++
        (['\\', '/', '?'] ++
          (['(', '?', '=', '\\', '/', '|', '$', ')'] ++ ['/', 'i'])) := rfl
  have hc1 : cleanBefore ['\\', '/', '?']
      (['\\', '/', '?'] ++
        (['(', '?', '=', '\\', '/', '|', '$', ')'] ++ ['/', 'i']))
      ('/' :: '^' :: escL p.data) :=
    ⟨startsWith_head_ne _ _ (by decide), startsWith_head_ne _ _ (by decide),
      clean_pat1_esc p.data hp _⟩
  have h1 : replFirst ['\\', '/', '?'] [] (compileLiteral p).repr.data =
      ('/' :: '^' :: escL p.data) ++
        (['(', '?', '=', '\\', '/', '|', '$', ')'] ++ ['/', 'i']) := by
    rw [e1, replFirst_skip _ _ _ _ hc1, replFirst_hit _ _ _ (by decide),
      List.nil_append]
  have hc2 : cleanBefore ['(', '?', '=', '\\', '/', '|', '$', ')']
      (['(', '?', '=', '\\', '/', '|', '$', ')'] ++ ['/', 'i'])
      ('/' :: '^' :: escL p.data) :=
    ⟨startsWith_head_ne _ _ (by decide), startsWith_head_ne _ _ (by decide),
      clean_pat2_esc p.data hp _⟩
  have h2 : replFirst ['(', '?', '=', '\\', '/', '|', '$', ')'] ['$']
      (('/' :: '^' :: escL p.data) ++
        (['(', '?', '=', '\\', '/', '|', '$', ')'] ++ ['/', 'i'])) =
      '/' :: '^' :: (escL p.data ++ ['$', '/', 'i']) := by
    rw [replFirst_skip _ _ _ _ hc2, replFirst_hit _ _ _ (by decide)]
    rfl
  simp only [decodeRepr, h1, h2]
  rw [parseBody_escL p.data hp ['i']]
  rfl

theorem splitThing_compile_filter (p : String) (hp : SafeL p.data) :
    (splitThing (PathThing.rx (compileLiteral p))).filter (fun s => s != "") =
      (splitSlash p).filter (fun s => s != "") := by
  by_cases h : p = "/"
  · subst h
    decide
  · have hfs : (compileLiteral p).fastSlash = false :=
      beq_eq_false_iff_ne.mpr h
    have hs : splitThing (PathThing.rx (compileLiteral p)) =
        (decodeRepr (compileLiteral p).repr).getD
          [complexMarker (compileLiteral p).repr] := by
      simp [splitThing, hfs]
    rw [hs, decodeRepr_compile p hp]
    rfl

theorem splitThing_routeHandler :
    splitThing (PathThing.rx routeHandlerRx) = ["", ""] := by decide

theorem routeString_congr (m : String) {a b : List String}
    (h : a.filter (fun s => s != "") = b.filter (fun s => s != "")) :
    routeString m a = routeString m b := by
  simp [routeString, h]

theorem gatherStack_methods (path : List String) (ms : List String) :
    gatherStack path
        (ms.map (fun m => Layer.methodHandler m routeHandlerRx)) =
      ms.map (fun m => routeString m path) := by
  induction ms with
  | nil => simp [gatherStack]
  | cons m ms ih =>
    simp only [List.map_cons, gatherStack, gatherLayer, ih]
    rw [splitThing_routeHandler]
    simp [routeString, List.filter_append]

theorem gatherLayer_spec (n : Nat) : ∀ (d : Decl), sizeOf d ≤ n →
    SafeDecl d → ∀ pre1 pre2,
      pre1.filter (fun s => s != "") = pre2.filter (fun s => s != "") →
      gatherLayer pre1 (buildLayer d) = specDecl pre2 d := by
  induction n with
  | zero =>
    intro d hd
    exfalso
    cases d <;> simp_arith at hd
  | succ n ih =>
    intro d hd hsafe pre1 pre2 hpre
    cases d with
    | route p ms =>
      have hb : buildLayer (Decl.route p ms) =
          Layer.route p
            (ms.map (fun m => Layer.methodHandler m routeHandlerRx)) := by
        simp [buildLayer]
      rw [hb]
      have hg : gatherLayer pre1
          (Layer.route p
            (ms.map (fun m => Layer.methodHandler m routeHandlerRx))) =
          gatherStack (pre1 ++ splitSlash p)
            (ms.map (fun m => Layer.methodHandler m routeHandlerRx)) := by
        simp [gatherLayer, splitThing]
      rw [hg, gatherStack_methods]
      have hsd : specDecl pre2 (Decl.route p ms) =
          ms.map (fun m => routeString m (pre2 ++ splitSlash p)) := by
        simp [specDecl]
      rw [hsd]
      apply List.map_congr_left
      intro m _
      apply routeString_congr
      simp only [List.filter_append, hpre]
    | mount p cs =>
      rcases hsafe with _ | ⟨_, _, hp, hcs⟩
      have hb : buildLayer (Decl.mount p cs) =
          Layer.router (compileLiteral p) (buildLayers cs) := by
        simp [buildLayer]
      rw [hb]
      have hg : gatherLayer pre1
          (Layer.router (compileLiteral p) (buildLayers cs)) =
          gatherStack (pre1 ++ splitThing (PathThing.rx (compileLiteral p)))
            (buildLayers cs) := by
        simp [gatherLayer]
      rw [hg]
      have hsd : specDecl pre2 (Decl.mount p cs) =
          specDecls (pre2 ++ splitSlash p) cs := by
        simp [specDecl]
      rw [hsd]
      have hpre' :
          (pre1 ++ splitThing (PathThing.rx (compileLiteral p))).filter
              (fun s => s != "") =
            (pre2 ++ splitSlash p).filter (fun s => s != "") := by
        simp only [List.filter_append, hpre, splitThing_compile_filter p hp]
      have inner : ∀ cs' : List Decl, (∀ d' ∈ cs', d' ∈ cs) →
          gatherStack (pre1 ++ splitThing (PathThing.rx (compileLiteral p)))
              (buildLayers cs') =
            specDecls (pre2 ++ splitSlash p) cs' := by
        intro cs'
        induction cs' with
        | nil => intro _; rfl
        | cons c cs0 ihc =>
          intro hsub
          have hcmem : c ∈ cs := hsub c (List.mem_cons_self c cs0)
          have hcsz : sizeOf c ≤ n := by
            have h1 : sizeOf c < sizeOf cs := List.sizeOf_lt_of_mem hcmem
            have h2 : sizeOf (Decl.mount p cs) = 1 + sizeOf p + sizeOf cs := by
              simp
            omega
          have hbl : buildLayers (c :: cs0) =
              buildLayer c :: buildLayers cs0 := by
            simp [buildLayers]
          rw [hbl]
          have hgs : gatherStack
              (pre1 ++ splitThing (PathThing.rx (compileLiteral p)))
              (buildLayer c :: buildLayers cs0) =
              gatherLayer
                  (pre1 ++ splitThing (PathThing.rx (compileLiteral p)))
                  (buildLayer c) ++
                gatherStack
                  (pre1 ++ splitThing (PathThing.rx (compileLiteral p)))
                  (buildLayers cs0) := by
            simp [gatherStack]
          have hss : specDecls (pre2 ++ splitSlash p) (c :: cs0) =
              specDecl (pre2 ++ splitSlash p) c ++
                specDecls (pre2 ++ splitSlash p) cs0 := by
            simp [specDecls]
          rw [hgs, hss, ih c hcsz (hcs c hcmem) _ _ hpre',
            ihc (fun d' hd' => hsub d' (List.mem_cons_of_mem c hd'))]
      exact inner cs (fun _ h => h)

theorem gatherStack_spec (cs : List Decl) (h : ∀ d ∈ cs, SafeDecl d) :
    gatherStack [] (buildLayers cs) = specDecls [] cs := by
  induction cs with
  | nil => rfl
  | cons c cs0 ih =>
    have hbl : buildLayers (c :: cs0) = buildLayer c :: buildLayers cs0 := by
      simp [buildLayers]
    have hgs : gatherStack [] (buildLayer c :: buildLayers cs0) =
        gatherLayer [] (buildLayer c) ++ gatherStack [] (buildLayers cs0) := by
      simp [gatherStack]
    have hss : specDecls [] (c :: cs0) =
        specDecl [] c ++ specDecls [] cs0 := by
      simp [specDecls]
    rw [hbl, hgs, hss,
      gatherLayer_spec (sizeOf c) c le_rfl (h c (List.mem_cons_self c cs0))
        [] [] rfl,
      ih (fun d hd => h d (List.mem_cons_of_mem c hd))]

theorem splitChars_ne_nil (l : List Char) : splitChars l ≠ [] := by
  induction l with
  | nil => simp [splitChars]
  | cons c cs ih =>
    simp only [splitChars]
    split
    · simp
    · split
      · simp
      · simp

theorem complexMarker_ne (repr : String) : complexMarker repr ≠ "" := by
  intro he
  have hd := congrArg String.data he
  simp [complexMarker] at hd

theorem decodeRepr_ne_nil {repr : String} {l : List String}
    (h : decodeRepr repr = some l) : l ≠ [] := by
  simp only [decodeRepr] at h
  split at h
  · rcases Option.map_eq_some'.mp h with ⟨a, -, rfl⟩
    simp only [splitSlash]
    intro hn
    exact splitChars_ne_nil _ (List.map_eq_nil_iff.mp hn)
  · exact absurd h (by simp)

/-- C8: the introspector walk is total over every tree shape: split always
yields a nonempty segment list, a compiled expression the decoder cannot
parse degrades to the opaque complex marker, and the walk then emits an
endpoint entry carrying the marker instead of aborting. -/
theorem introspector_total_fallback (repr : String)
    (h : decodeRepr repr = none) :
    splitThing (PathThing.rx ⟨false, repr⟩) = [complexMarker repr] ∧
    gatherStack [] [Layer.methodHandler "get" ⟨false, repr⟩] =
      ["GET /" ++ complexMarker repr] ∧
    (∀ t : PathThing, splitThing t ≠ []) := by
  have hsplit : splitThing (PathThing.rx ⟨false, repr⟩) =
      [complexMarker repr] := by
    simp [splitThing, h]
  refine ⟨hsplit, ?_, ?_⟩
  · have hg : gatherStack []
        [Layer.methodHandler "get" (⟨false, repr⟩ : RegexLike)] =
        gatherLayer [] (Layer.methodHandler "get" ⟨false, repr⟩) ++ [] := by
      simp [gatherStack]
    rw [hg, List.append_nil]
    have hgl : gatherLayer []
        (Layer.methodHandler "get" (⟨false, repr⟩ : RegexLike)) =
        [toUpperJs "get" ++ " /" ++
          joinSlash ((([] : List String) ++
            splitThing (PathThing.rx ⟨false, repr⟩)).filter
              (fun s => s != ""))] := by
      simp [gatherLayer]
    rw [hgl, List.nil_append, hsplit]
    have hbne : (complexMarker repr != "") = true :=
      bne_iff_ne.mpr (complexMarker_ne repr)
    have hfil : [complexMarker repr].filter (fun s => s != "") =
        [complexMarker repr] := by
      simp [List.filter, hbne]
    rw [hfil]
    have hj : joinSlash [complexMarker repr] = complexMarker repr := rfl
    rw [hj]
    have hup : toUpperJs "get" = "GET" := by decide
    rw [hup]
    have hga : ("GET" : String) ++ " /" = "GET /" := by decide
    rw [hga]
  · intro t
    cases t with
    | str s =>
      simp only [splitThing, splitSlash]
      intro hn
      exact splitChars_ne_nil _ (List.map_eq_nil_iff.mp hn)
    | rx r =>
      simp only [splitThing]
      split
      · simp
      · cases hdec : decodeRepr r.repr with
        | none => simp [hdec]
        | some l =>
          simp only [hdec, Option.getD_some]
          exact decodeRepr_ne_nil hdec

theorem introspector_total_fallback_witness :
    splitThing (PathThing.rx
        ⟨false, "/^\\/user\\/(?:([^\\/]+?))\\/?(?=\\/|$)/i"⟩) =
      [complexMarker "/^\\/user\\/(?:([^\\/]+?))\\/?(?=\\/|$)/i"] :=
  (introspector_total_fallback "/^\\/user\\/(?:([^\\/]+?))\\/?(?=\\/|$)/i"
    (by decide)).1

/-- C7: on a routing tree built from literal-path registrations the
introspector returns exactly the declared METHOD path strings of those
routes, deduplicated with set semantics (first occurrences kept); in
particular a dispatcher whose only route is GET /api/widgets/list yields
exactly that single entry. -/
theorem introspector_literal_routes (decls : List Decl)
    (h : ∀ d ∈ decls, SafeDecl d) :
    getEndPoints (buildLayers decls) = (specDecls [] decls).eraseDups ∧
    getEndPoints (buildLayers [Decl.route "/api/widgets/list" ["get"]]) =
      ["GET /api/widgets/list"] := by
  constructor
  · rw [getEndPoints, gatherStack_spec decls h]
  · have hsafe : ∀ d ∈ [Decl.route "/api/widgets/list" ["get"]],
        SafeDecl d := by
      intro d hd
      simp only [List.mem_singleton] at hd
      subst hd
      exact SafeDecl.route _ _
    rw [getEndPoints, gatherStack_spec _ hsafe]
    simp only [specDecls, specDecl, List.map, List.append_nil,
      List.nil_append]
    decide

theorem introspector_literal_routes_witness :
    getEndPoints (buildLayers
        [Decl.mount "/api" [Decl.route "/widgets" ["get", "post"]]]) =
      (specDecls []
        [Decl.mount "/api" [Decl.route "/widgets" ["get", "post"]]]).eraseDups :=
  (introspector_literal_routes
    [Decl.mount "/api" [Decl.route "/widgets" ["get", "post"]]]
    (by
      intro d hd
      simp only [List.mem_singleton] at hd
      subst hd
      refine SafeDecl.mount _ _ (by decide) ?_
      intro d' hd'
      simp only [List.mem_singleton] at hd'
      subst hd'
      exact SafeDecl.route _ _)).1
